import Mathlib

/-!
Verification of the OBF (Ouzel Binary Format) `Value` model and codec.

The in-memory model below is a shallow embedding of the class
`ouzel::obf::Value` from `src/ouzel/utils/OBF.h`.  The class keeps every
payload field resident in every instance regardless of the active tag, so
the embedding is a single-constructor inductive carrying all eight fields.
Machine integers are modelled as `Nat` (a `uintN_t` parameter is a `Nat`
together with a `< 2^N` hypothesis where it matters); `std::string` and
`std::vector<uint8_t>` are byte lists (`List Nat`); the two `std::map`
fields are association lists kept sorted by key, matching `std::map`
iteration order.  The C++ `double` field is modelled as `Float`; no claim
depends on floating-point arithmetic, only on the field being stored and
preserved.  `assert(...)` statements are live in debug builds: a method
guarded by an assert is embedded as an `Option`-returning function that
yields `none` exactly when the asserted condition fails (fail-fast), and
the release behaviour (assert compiled out) is embedded separately where a
claim is about it.
-/

/-- The `Type` discriminator enum of `ouzel::obf::Value` (named `Ty` here
because `Type` is reserved in Lean).  Tag byte values follow the source
declaration order, `NONE = 0` through `DICTIONARY = 12`. -/
inductive Ty : Type where
  | NONE
  | INT8
  | INT16
  | INT32
  | INT64
  | FLOAT
  | DOUBLE
  | STRING
  | LONG_STRING
  | BYTE_ARRAY
  | OBJECT
  | ARRAY
  | DICTIONARY
deriving DecidableEq, Repr

/-- The in-memory `ouzel::obf::Value` node: a tag plus all eight payload
fields, all resident at once exactly as in the C++ class (fields in source
declaration order: `type`, `intValue`, `doubleValue`, `stringValue`,
`byteArrayValue`, `objectValue`, `arrayValue`, `dictionaryValue`). -/
inductive Value : Type where
  | mk (type : Ty) (intValue : Nat) (doubleValue : Float)
       (stringValue : List Nat) (byteArrayValue : List Nat)
       (objectValue : List (Nat × Value)) (arrayValue : List Value)
       (dictionaryValue : List (List Nat × Value))

def Value.type : Value → Ty
  | .mk t _ _ _ _ _ _ _ => t

def Value.intValue : Value → Nat
  | .mk _ i _ _ _ _ _ _ => i

def Value.doubleValue : Value → Float
  | .mk _ _ d _ _ _ _ _ => d

def Value.stringValue : Value → List Nat
  | .mk _ _ _ s _ _ _ _ => s

def Value.byteArrayValue : Value → List Nat
  | .mk _ _ _ _ b _ _ _ => b

def Value.objectValue : Value → List (Nat × Value)
  | .mk _ _ _ _ _ o _ _ => o

def Value.arrayValue : Value → List Value
  | .mk _ _ _ _ _ _ a _ => a

def Value.dictionaryValue : Value → List (List Nat × Value)
  | .mk _ _ _ _ _ _ _ d => d

/-- The default constructor `Value()`: `type` is member-initialised to
`NONE`, the string/vector/map members are default-constructed empty; the
C++ `intValue`/`doubleValue` members are left uninitialised and are
modelled as `0` / `0.0`. -/
def Value.defaultVal : Value :=
  .mk Ty.NONE 0 0.0 [] [] [] [] []

/-- `Value(Type aType)`: sets the tag only, every payload member is
default-initialised as in `Value()`. -/
def Value.fromType (t : Ty) : Value :=
  .mk t 0 0.0 [] [] [] [] []

/-- `Value(uint8_t value)`: tag `INT8`, `intValue = value`. -/
def Value.fromUInt8 (value : Nat) : Value :=
  .mk Ty.INT8 value 0.0 [] [] [] [] []

/-- `Value(uint16_t value)`: stores `intValue = value`, then narrows the
tag by comparing against `numeric_limits<uint8_t>::max()`. -/
def Value.fromUInt16 (value : Nat) : Value :=
  .mk (if value > 255 then Ty.INT16 else Ty.INT8) value 0.0 [] [] [] [] []

/-- `Value(uint32_t value)`: narrowing chain against the `uint16`/`uint8`
maxima. -/
def Value.fromUInt32 (value : Nat) : Value :=
  .mk (if value > 65535 then Ty.INT32
       else if value > 255 then Ty.INT16
       else Ty.INT8) value 0.0 [] [] [] [] []

/-- `Value(uint64_t value)`: narrowing chain against the
`uint32`/`uint16`/`uint8` maxima. -/
def Value.fromUInt64 (value : Nat) : Value :=
  .mk (if value > 4294967295 then Ty.INT64
       else if value > 65535 then Ty.INT32
       else if value > 255 then Ty.INT16
       else Ty.INT8) value 0.0 [] [] [] [] []

/-- `Value(const std::string&)`: stores the string, picks `LONG_STRING`
when `value.length() > numeric_limits<uint16_t>::max()`, else `STRING`. -/
def Value.fromString (value : List Nat) : Value :=
  .mk (if value.length > 65535 then Ty.LONG_STRING else Ty.STRING)
      0 0.0 value [] [] [] []

/-- `operator=(Type newType)`: overwrites the tag and returns `*this`;
no payload member is touched. -/
def Value.assignType : Value → Ty → Value
  | .mk _ i d s b o a dc, newType => .mk newType i d s b o a dc

/-- `operator=(uint8_t value)`: tag `INT8`, `intValue = value`. -/
def Value.assignUInt8 : Value → Nat → Value
  | .mk _ _ d s b o a dc, value => .mk Ty.INT8 value d s b o a dc

/-- `operator=(uint16_t value)`: stores `intValue` then narrows. -/
def Value.assignUInt16 : Value → Nat → Value
  | .mk _ _ d s b o a dc, value =>
    .mk (if value > 255 then Ty.INT16 else Ty.INT8) value d s b o a dc

/-- `operator=(uint32_t value)`: stores `intValue` then narrows. -/
def Value.assignUInt32 : Value → Nat → Value
  | .mk _ _ d s b o a dc, value =>
    .mk (if value > 65535 then Ty.INT32
         else if value > 255 then Ty.INT16
         else Ty.INT8) value d s b o a dc

/-- `operator=(uint64_t value)`: stores `intValue` then narrows. -/
def Value.assignUInt64 : Value → Nat → Value
  | .mk _ _ d s b o a dc, value =>
    .mk (if value > 4294967295 then Ty.INT64
         else if value > 65535 then Ty.INT32
         else if value > 255 then Ty.INT16
         else Ty.INT8) value d s b o a dc

/-- `operator=(const std::string& value)`: stores the string; `STRING`
when `value.length() <= numeric_limits<uint16_t>::max()`, else
`LONG_STRING`. -/
def Value.assignString : Value → List Nat → Value
  | .mk _ i d _ b o a dc, value =>
    .mk (if value.length ≤ 65535 then Ty.STRING else Ty.LONG_STRING)
        i d value b o a dc

/-- The condition asserted by every integer accessor:
`type == INT8 || type == INT16 || type == INT32 || type == INT64`. -/
def Ty.isIntTag (t : Ty) : Prop :=
  t = Ty.INT8 ∨ t = Ty.INT16 ∨ t = Ty.INT32 ∨ t = Ty.INT64

instance (t : Ty) : Decidable t.isIntTag := by
  unfold Ty.isIntTag; infer_instance

/-- Two's-complement reinterpretation of an `w`-bit pattern `n < 2^w`,
i.e. the value of `static_cast<intW_t>` applied to the truncated bits. -/
def toSigned (w n : Nat) : Int :=
  if n < 2 ^ (w - 1) then (n : Int) else (n : Int) - 2 ^ w

/-- `asInt8()`: asserts an integer tag, then
`static_cast<int8_t>(intValue)` (truncate to 8 bits, reinterpret
signed). -/
def Value.asInt8 (v : Value) : Option Int :=
  if v.type.isIntTag then some (toSigned 8 (v.intValue % 2 ^ 8)) else none

/-- `asUInt8()`: asserts an integer tag, then
`static_cast<uint8_t>(intValue)`. -/
def Value.asUInt8 (v : Value) : Option Nat :=
  if v.type.isIntTag then some (v.intValue % 2 ^ 8) else none

/-- `asInt16()`. -/
def Value.asInt16 (v : Value) : Option Int :=
  if v.type.isIntTag then some (toSigned 16 (v.intValue % 2 ^ 16)) else none

/-- `asUInt16()`. -/
def Value.asUInt16 (v : Value) : Option Nat :=
  if v.type.isIntTag then some (v.intValue % 2 ^ 16) else none

/-- `asInt32()`. -/
def Value.asInt32 (v : Value) : Option Int :=
  if v.type.isIntTag then some (toSigned 32 (v.intValue % 2 ^ 32)) else none

/-- `asUInt32()`. -/
def Value.asUInt32 (v : Value) : Option Nat :=
  if v.type.isIntTag then some (v.intValue % 2 ^ 32) else none

/-- `asInt64()`: `static_cast<int64_t>` of the stored `uint64_t`. -/
def Value.asInt64 (v : Value) : Option Int :=
  if v.type.isIntTag then some (toSigned 64 (v.intValue % 2 ^ 64)) else none

/-- `asUInt64()`: returns the stored `uint64_t` magnitude itself. -/
def Value.asUInt64 (v : Value) : Option Nat :=
  if v.type.isIntTag then some v.intValue else none

/-- `std::map<uint32_t, Value>::find`: lookup by key equality. -/
def lookupU : List (Nat × Value) → Nat → Option Value
  | [], _ => none
  | (k, w) :: rest, key => if key = k then some w else lookupU rest key

/-- `std::map<std::string, Value>::find`: lookup by key equality. -/
def lookupS : List (List Nat × Value) → List Nat → Option Value
  | [], _ => none
  | (k, w) :: rest, key => if key = k then some w else lookupS rest key

/-- `std::map<uint32_t, Value>::operator[]`: insert a default-constructed
`Value` at `key` if absent, keeping the entries sorted by key. -/
def insertDefaultU : List (Nat × Value) → Nat → List (Nat × Value)
  | [], key => [(key, Value.defaultVal)]
  | (k, w) :: rest, key =>
    if key < k then (key, Value.defaultVal) :: (k, w) :: rest
    else if key = k then (k, w) :: rest
    else (k, w) :: insertDefaultU rest key

/-- `getSize()`: asserts `type == ARRAY` (modelled as `none` on
violation), then returns `arrayValue.size()`. -/
def Value.getSize (v : Value) : Option Nat :=
  if v.type = Ty.ARRAY then some v.arrayValue.length else none

/-- The const `operator[](uint32_t) const`: asserts `OBJECT || ARRAY`;
`OBJECT` returns the found entry or `Value()`, `ARRAY` returns the element
when `key < arrayValue.size()`, else `Value()`.  A const member function
takes the receiver purely as input here, so it cannot mutate it. -/
def Value.atConstU (v : Value) (key : Nat) : Option Value :=
  if v.type = Ty.OBJECT ∨ v.type = Ty.ARRAY then
    some (if v.type = Ty.OBJECT then
            match lookupU v.objectValue key with
            | some w => w
            | none => Value.defaultVal
          else
            match v.arrayValue[key]? with
            | some w => w
            | none => Value.defaultVal)
  else none

/-- The mutable `operator[](uint32_t)` in release semantics (the assert
`OBJECT || ARRAY` is compiled out): on `OBJECT` it insert-or-finds `key`;
on everything else it sets `type = ARRAY` and returns `arrayValue[key]`.
The returned lvalue reference is modelled by the pair (post-state,
referenced element); `arrayValue[key]` with `key` out of range is
undefined behaviour in C++ and is modelled as `none`. -/
def Value.atMutU : Value → Nat → Value × Option Value
  | .mk t i d s b o a dc, key =>
    if t = Ty.OBJECT then
      (.mk t i d s b (insertDefaultU o key) a dc,
       lookupU (insertDefaultU o key) key)
    else
      (.mk Ty.ARRAY i d s b o a dc, a[key]?)

/-- The const `operator[](const std::string&) const`: asserts
`DICTIONARY`; returns the found entry or `Value()`. -/
def Value.atConstS (v : Value) (key : List Nat) : Option Value :=
  if v.type = Ty.DICTIONARY then
    some (match lookupS v.dictionaryValue key with
          | some w => w
          | none => Value.defaultVal)
  else none

/-- `hasElement(uint32_t)`: asserts `OBJECT || ARRAY`; membership test for
`OBJECT`, range test for `ARRAY`, `false` otherwise. -/
def Value.hasElementU (v : Value) (key : Nat) : Option Bool :=
  if v.type = Ty.OBJECT ∨ v.type = Ty.ARRAY then
    some (if v.type = Ty.OBJECT then (lookupU v.objectValue key).isSome
          else if v.type = Ty.ARRAY then decide (key < v.arrayValue.length)
          else false)
  else none

/-- `hasElement(const std::string&)`: asserts `DICTIONARY`; membership
test. -/
def Value.hasElementS (v : Value) (key : List Nat) : Option Bool :=
  if v.type = Ty.DICTIONARY then
    some (lookupS v.dictionaryValue key).isSome
  else none

/-- `append(const Value& node)`: `arrayValue.push_back(node)`.  The source
body contains no assert and touches no other member. -/
def Value.append : Value → Value → Value
  | .mk t i d s b o a dc, node => .mk t i d s b o (a ++ [node]) dc

/-- The tag demanded by the spec narrowing law: smallest of
`INT8 < INT16 < INT32 < INT64` whose width can represent magnitude `m`.
This definition follows the spec wording and is compared against the
constructor/assignment embeddings above. -/
def specNarrowTag (m : Nat) : Ty :=
  if m ≤ 255 then Ty.INT8
  else if m ≤ 65535 then Ty.INT16
  else if m ≤ 4294967295 then Ty.INT32
  else Ty.INT64

/-!
The binary codec.  `Value::decode` and `Value::encode` are declared in
`OBF.h` but their bodies (OBF.cpp) are not part of the reviewed sources,
so the codec below is modelled from the spec.
-/

/-! Modelled from the spec: the value domain of the codec (spec section 3,
which the missing OBF.cpp serialises).  Exactly one payload per tag;
`OBJECT` is an integer-keyed map sorted by key, `DICTIONARY` a
string-keyed map sorted by key, `ARRAY` an ordered sequence.  `FLOAT` and
`DOUBLE` payloads are represented by their IEEE-754 bit patterns (32- and
64-bit words), since the codec moves them as raw bytes. -/
mutual
inductive DocValue : Type where
  | vnone
  | vint8 (n : Nat)
  | vint16 (n : Nat)
  | vint32 (n : Nat)
  | vint64 (n : Nat)
  | vfloat (bits : Nat)
  | vdouble (bits : Nat)
  | vstring (s : List Nat)
  | vlongString (s : List Nat)
  | vbyteArray (b : List Nat)
  | vobject (entries : ObjEntries)
  | varray (elems : DocList)
  | vdict (entries : DictEntries)
inductive DocList : Type where
  | nil
  | cons (hd : DocValue) (tl : DocList)
inductive ObjEntries : Type where
  | nil
  | cons (key : Nat) (val : DocValue) (tl : ObjEntries)
inductive DictEntries : Type where
  | nil
  | cons (key : List Nat) (val : DocValue) (tl : DictEntries)
end

def DocList.count : DocList → Nat
  | .nil => 0
  | .cons _ tl => tl.count + 1

def ObjEntries.count : ObjEntries → Nat
  | .nil => 0
  | .cons _ _ tl => tl.count + 1

def DictEntries.count : DictEntries → Nat
  | .nil => 0
  | .cons _ _ tl => tl.count + 1

/-- Little-endian byte image of `n` truncated to `w` bytes. -/
def natToBytes : Nat → Nat → List Nat
  | 0, _ => []
  | w + 1, n => n % 256 :: natToBytes w (n / 256)

/-- Little-endian value of a byte list. -/
def bytesToNat : List Nat → Nat
  | [] => 0
  | b :: bs => b + 256 * bytesToNat bs

/-! Modelled from the spec: the encoder of the missing OBF.cpp,
`encode(buffer)`.  It appends the wire image of a node to the buffer; the
function below returns exactly the appended bytes (whose length is the
returned byte count).  Wire format per spec section 4.2: a tag byte first,
then the payload with integers and length/count prefixes little-endian. -/
mutual
def encodeVal : DocValue → List Nat
  | .vnone => [0]
  | .vint8 n => 1 :: natToBytes 1 n
  | .vint16 n => 2 :: natToBytes 2 n
  | .vint32 n => 3 :: natToBytes 4 n
  | .vint64 n => 4 :: natToBytes 8 n
  | .vfloat bits => 5 :: natToBytes 4 bits
  | .vdouble bits => 6 :: natToBytes 8 bits
  | .vstring s => 7 :: (natToBytes 2 s.length ++ s)
  | .vlongString s => 8 :: (natToBytes 4 s.length ++ s)
  | .vbyteArray b => 9 :: (natToBytes 4 b.length ++ b)
  | .vobject es => 10 :: (natToBytes 4 es.count ++ encodeObjEntries es)
  | .varray l => 11 :: (natToBytes 4 l.count ++ encodeList l)
  | .vdict es => 12 :: (natToBytes 4 es.count ++ encodeDictEntries es)
def encodeList : DocList → List Nat
  | .nil => []
  | .cons v tl => encodeVal v ++ encodeList tl
def encodeObjEntries : ObjEntries → List Nat
  | .nil => []
  | .cons k v tl => natToBytes 4 k ++ (encodeVal v ++ encodeObjEntries tl)
def encodeDictEntries : DictEntries → List Nat
  | .nil => []
  | .cons k v tl =>
    natToBytes 2 k.length ++ (k ++ (encodeVal v ++ encodeDictEntries tl))
end

/-- Every byte of the list is an actual byte. -/
def bytesOk : List Nat → Bool
  | [] => true
  | b :: bs => decide (b < 256) && bytesOk bs

/-- All keys of the object entries are strictly greater than `k`. -/
def objAllGt (k : Nat) : ObjEntries → Bool
  | .nil => true
  | .cons k2 _ tl => decide (k < k2) && objAllGt k tl

/-- Strict lexicographic byte-string order, as used by
`std::map<std::string, Value>` (shorter prefix sorts first). -/
def ltBytes : List Nat → List Nat → Bool
  | [], [] => false
  | [], _ :: _ => true
  | _ :: _, [] => false
  | a :: as_, b :: bs => decide (a < b) || (decide (a = b) && ltBytes as_ bs)

/-- All keys of the dictionary entries are strictly greater than `k`. -/
def dictAllGt (k : List Nat) : DictEntries → Bool
  | .nil => true
  | .cons k2 _ tl => ltBytes k k2 && dictAllGt k tl

/-! Representable values: what the constructors of the in-memory `Value`
can actually build.  Integer payloads fit the width implied by their tag,
`STRING` byte length fits its 2-byte prefix, the 32-bit length/count
prefixes fit, string/byte payloads consist of bytes, and map keys are
strictly sorted (`std::map` storage order) with `OBJECT` keys being
`uint32_t`. -/
mutual
def WFv : DocValue → Bool
  | .vnone => true
  | .vint8 n => decide (n < 2 ^ 8)
  | .vint16 n => decide (n < 2 ^ 16)
  | .vint32 n => decide (n < 2 ^ 32)
  | .vint64 n => decide (n < 2 ^ 64)
  | .vfloat bits => decide (bits < 2 ^ 32)
  | .vdouble bits => decide (bits < 2 ^ 64)
  | .vstring s => decide (s.length < 2 ^ 16) && bytesOk s
  | .vlongString s => decide (s.length < 2 ^ 32) && bytesOk s
  | .vbyteArray b => decide (b.length < 2 ^ 32) && bytesOk b
  | .vobject es => decide (es.count < 2 ^ 32) && WFobj es
  | .varray l => decide (l.count < 2 ^ 32) && WFlist l
  | .vdict es => decide (es.count < 2 ^ 32) && WFdict es
def WFlist : DocList → Bool
  | .nil => true
  | .cons v tl => WFv v && WFlist tl
def WFobj : ObjEntries → Bool
  | .nil => true
  | .cons k v tl => decide (k < 2 ^ 32) && WFv v && objAllGt k tl && WFobj tl
def WFdict : DictEntries → Bool
  | .nil => true
  | .cons k v tl =>
    decide (k.length < 2 ^ 16) && bytesOk k && WFv v && dictAllGt k tl
      && WFdict tl
end

/-- Read exactly `n` bytes from the front of the buffer; `none` when the
buffer is shorter (the out-of-range condition of the spec). -/
def readN (n : Nat) (bytes : List Nat) : Option (List Nat) :=
  if n ≤ bytes.length then some (bytes.take n) else none

/-- Read a `w`-byte little-endian integer from the front of the buffer. -/
def readLE (w : Nat) (bytes : List Nat) : Option Nat :=
  (readN w bytes).map bytesToNat

/-! Modelled from the spec: the decoder of the missing OBF.cpp,
`decode(buffer, offset)`.  It reads the tag byte, dispatches to the
matching payload reader, and returns the decoded node together with the
number of bytes consumed; an unrecognized tag byte or a length/count
prefix that would read past the buffer end yields the distinguishable
fatal error `none`.  Container entries are read in wire order (for
buffers produced by `encodeVal` the entries are already in `std::map`
storage order, sorted by key).  The recursion of the C++ decoder is on
the raw buffer; the structural `fuel` argument bounds the nesting depth
only, and the wrapper `decode` below supplies more fuel than any buffer
can exhaust. -/
mutual
def decodeVal : Nat → List Nat → Option (DocValue × Nat)
  | 0, _ => none
  | fuel + 1, bytes =>
    match bytes with
    | [] => none
    | tag :: rest =>
      if tag = 0 then some (DocValue.vnone, 1)
      else if tag = 1 then
        match readLE 1 rest with
        | none => none
        | some n => some (DocValue.vint8 n, 2)
      else if tag = 2 then
        match readLE 2 rest with
        | none => none
        | some n => some (DocValue.vint16 n, 3)
      else if tag = 3 then
        match readLE 4 rest with
        | none => none
        | some n => some (DocValue.vint32 n, 5)
      else if tag = 4 then
        match readLE 8 rest with
        | none => none
        | some n => some (DocValue.vint64 n, 9)
      else if tag = 5 then
        match readLE 4 rest with
        | none => none
        | some n => some (DocValue.vfloat n, 5)
      else if tag = 6 then
        match readLE 8 rest with
        | none => none
        | some n => some (DocValue.vdouble n, 9)
      else if tag = 7 then
        match readLE 2 rest with
        | none => none
        | some len =>
          match readN len (rest.drop 2) with
          | none => none
          | some s => some (DocValue.vstring s, 1 + (2 + len))
      else if tag = 8 then
        match readLE 4 rest with
        | none => none
        | some len =>
          match readN len (rest.drop 4) with
          | none => none
          | some s => some (DocValue.vlongString s, 1 + (4 + len))
      else if tag = 9 then
        match readLE 4 rest with
        | none => none
        | some len =>
          match readN len (rest.drop 4) with
          | none => none
          | some b => some (DocValue.vbyteArray b, 1 + (4 + len))
      else if tag = 10 then
        match readLE 4 rest with
        | none => none
        | some cnt =>
          match decodeObjN fuel (rest.drop 4) cnt with
          | none => none
          | some (es, used) => some (DocValue.vobject es, 1 + (4 + used))
      else if tag = 11 then
        match readLE 4 rest with
        | none => none
        | some cnt =>
          match decodeArrN fuel (rest.drop 4) cnt with
          | none => none
          | some (l, used) => some (DocValue.varray l, 1 + (4 + used))
      else if tag = 12 then
        match readLE 4 rest with
        | none => none
        | some cnt =>
          match decodeDictN fuel (rest.drop 4) cnt with
          | none => none
          | some (es, used) => some (DocValue.vdict es, 1 + (4 + used))
      else none
termination_by fuel _ => (fuel, 0)
def decodeArrN : Nat → List Nat → Nat → Option (DocList × Nat)
  | _, _, 0 => some (DocList.nil, 0)
  | fuel, bytes, cnt + 1 =>
    match decodeVal fuel bytes with
    | none => none
    | some (v, u) =>
      match decodeArrN fuel (bytes.drop u) cnt with
      | none => none
      | some (tl, u2) => some (DocList.cons v tl, u + u2)
termination_by fuel _ cnt => (fuel, cnt + 1)
def decodeObjN : Nat → List Nat → Nat → Option (ObjEntries × Nat)
  | _, _, 0 => some (ObjEntries.nil, 0)
  | fuel, bytes, cnt + 1 =>
    match readLE 4 bytes with
    | none => none
    | some key =>
      match decodeVal fuel (bytes.drop 4) with
      | none => none
      | some (v, u) =>
        match decodeObjN fuel (bytes.drop (4 + u)) cnt with
        | none => none
        | some (tl, u2) => some (ObjEntries.cons key v tl, 4 + u + u2)
termination_by fuel _ cnt => (fuel, cnt + 1)
def decodeDictN : Nat → List Nat → Nat → Option (DictEntries × Nat)
  | _, _, 0 => some (DictEntries.nil, 0)
  | fuel, bytes, cnt + 1 =>
    match readLE 2 bytes with
    | none => none
    | some klen =>
      match readN klen (bytes.drop 2) with
      | none => none
      | some key =>
        match decodeVal fuel (bytes.drop (2 + klen)) with
        | none => none
        | some (v, u) =>
          match decodeDictN fuel (bytes.drop (2 + (klen + u))) cnt with
          | none => none
          | some (tl, u2) =>
            some (DictEntries.cons key v tl, 2 + klen + u + u2)
termination_by fuel _ cnt => (fuel, cnt + 1)
end

/-- Modelled from the spec: `decode(buffer, offset)` reads one value
starting at `offset` into the buffer and returns it with the byte count
consumed from `offset`; `none` is the fatal decode error.  Reading at an
offset is reading the suffix; the fuel `buffer.length + 1` exceeds any
nesting depth the buffer can encode, so it is never the cause of
failure. -/
def decode (buffer : List Nat) (offset : Nat) : Option (DocValue × Nat) :=
  decodeVal (buffer.length + 1) (buffer.drop offset)

theorem natToBytes_length (w : Nat) : ∀ n, (natToBytes w n).length = w := by
  induction w with
  | zero => intro n; rfl
  | succ w ih => intro n; simp [natToBytes, ih]

theorem mod_mul_decomp (n K : Nat) (hK : 0 < K) :
    n % (256 * K) = n % 256 + 256 * (n / 256 % K) := by
  have e1 : n = 256 * (n / 256) + n % 256 := (Nat.div_add_mod n 256).symm
  have e2 : n / 256 = K * (n / 256 / K) + n / 256 % K :=
    (Nat.div_add_mod (n / 256) K).symm
  have hb : n / 256 % K < K := Nat.mod_lt _ hK
  have hc : n % 256 < 256 := Nat.mod_lt _ (by omega)
  conv_lhs => rw [e1, e2]
  have hre : 256 * (K * (n / 256 / K) + n / 256 % K) + n % 256
      = 256 * K * (n / 256 / K) + (n % 256 + 256 * (n / 256 % K)) := by ring
  rw [hre, Nat.mul_add_mod, Nat.mod_eq_of_lt (by omega)]

theorem bytesToNat_natToBytes (w : Nat) :
    ∀ n, bytesToNat (natToBytes w n) = n % 2 ^ (8 * w) := by
  induction w with
  | zero => intro n; simp [natToBytes, bytesToNat, Nat.mod_one]
  | succ w ih =>
    intro n
    have h : 2 ^ (8 * (w + 1)) = 256 * 2 ^ (8 * w) := by ring
    rw [natToBytes, bytesToNat, ih, h,
        mod_mul_decomp n (2 ^ (8 * w)) (by positivity)]

theorem readN_append (l r : List Nat) : readN l.length (l ++ r) = some l := by
  simp [readN]

theorem readLE_append (w n : Nat) (r : List Nat) (h : n < 2 ^ (8 * w)) :
    readLE w (natToBytes w n ++ r) = some n := by
  have hl := natToBytes_length w n
  have hrn : readN w (natToBytes w n ++ r) = some (natToBytes w n) := by
    have h0 := readN_append (natToBytes w n) r
    rwa [hl] at h0
  rw [readLE, hrn]
  simp [bytesToNat_natToBytes, Nat.mod_eq_of_lt h]

theorem drop_len (a b : List Nat) : (a ++ b).drop a.length = b := by
  simp

theorem drop_len_add (a b : List Nat) (n : Nat) :
    (a ++ b).drop (a.length + n) = b.drop n := by
  induction a with
  | nil => simp
  | cons x xs ih => simp [Nat.succ_add, ih]

theorem readN_le {n : Nat} {bytes l : List Nat} (h : readN n bytes = some l) :
    n ≤ bytes.length := by
  by_cases hc : n ≤ bytes.length
  · exact hc
  · simp [readN, hc] at h

theorem readLE_le {w n : Nat} {bytes : List Nat} (h : readLE w bytes = some n) :
    w ≤ bytes.length := by
  rw [readLE] at h
  cases hr : readN w bytes with
  | none => rw [hr] at h; simp at h
  | some l => exact readN_le hr

/-! Round-trip: decoding the bytes written by the encoder, with any
suffix appended, returns exactly the encoded value and consumes exactly
the encoded bytes. -/

theorem drop4_natToBytes (k : Nat) (x : List Nat) :
    (natToBytes 4 k ++ x).drop 4 = x := by
  have h := drop_len (natToBytes 4 k) x
  rwa [natToBytes_length] at h

theorem drop4_add_natToBytes (k n : Nat) (x : List Nat) :
    (natToBytes 4 k ++ x).drop (4 + n) = x.drop n := by
  have h := drop_len_add (natToBytes 4 k) x n
  rwa [natToBytes_length] at h

theorem drop2_natToBytes (k : Nat) (x : List Nat) :
    (natToBytes 2 k ++ x).drop 2 = x := by
  have h := drop_len (natToBytes 2 k) x
  rwa [natToBytes_length] at h

theorem drop2_add_natToBytes (k n : Nat) (x : List Nat) :
    (natToBytes 2 k ++ x).drop (2 + n) = x.drop n := by
  have h := drop_len_add (natToBytes 2 k) x n
  rwa [natToBytes_length] at h

mutual
theorem rtVal : ∀ (v : DocValue), WFv v = true → ∀ (fuel : Nat)
    (rest : List Nat), (encodeVal v).length < fuel →
    decodeVal fuel (encodeVal v ++ rest) = some (v, (encodeVal v).length)
  | .vnone => by
    intro hwf fuel rest hlt
    obtain ⟨g, rfl⟩ : ∃ g, fuel = g + 1 := ⟨fuel - 1, by omega⟩
    rw [show encodeVal DocValue.vnone ++ rest = 0 :: rest from rfl,
        decodeVal]
    simp [encodeVal]
  | .vint8 n => by
    intro hwf fuel rest hlt
    simp only [WFv, decide_eq_true_eq] at hwf
    obtain ⟨g, rfl⟩ : ∃ g, fuel = g + 1 := ⟨fuel - 1, by omega⟩
    rw [show encodeVal (DocValue.vint8 n) ++ rest
          = 1 :: (natToBytes 1 n ++ rest) by simp [encodeVal], decodeVal,
        readLE_append 1 n rest (by norm_num; omega)]
    simp [encodeVal, natToBytes_length]
  | .vint16 n => by
    intro hwf fuel rest hlt
    simp only [WFv, decide_eq_true_eq] at hwf
    obtain ⟨g, rfl⟩ : ∃ g, fuel = g + 1 := ⟨fuel - 1, by omega⟩
    rw [show encodeVal (DocValue.vint16 n) ++ rest
          = 2 :: (natToBytes 2 n ++ rest) by simp [encodeVal], decodeVal,
        readLE_append 2 n rest (by norm_num; omega)]
    simp [encodeVal, natToBytes_length]
  | .vint32 n => by
    intro hwf fuel rest hlt
    simp only [WFv, decide_eq_true_eq] at hwf
    obtain ⟨g, rfl⟩ : ∃ g, fuel = g + 1 := ⟨fuel - 1, by omega⟩
    rw [show encodeVal (DocValue.vint32 n) ++ rest
          = 3 :: (natToBytes 4 n ++ rest) by simp [encodeVal], decodeVal,
        readLE_append 4 n rest (by norm_num; omega)]
    simp [encodeVal, natToBytes_length]
  | .vint64 n => by
    intro hwf fuel rest hlt
    simp only [WFv, decide_eq_true_eq] at hwf
    obtain ⟨g, rfl⟩ : ∃ g, fuel = g + 1 := ⟨fuel - 1, by omega⟩
    rw [show encodeVal (DocValue.vint64 n) ++ rest
          = 4 :: (natToBytes 8 n ++ rest) by simp [encodeVal], decodeVal,
        readLE_append 8 n rest (by norm_num; omega)]
    simp [encodeVal, natToBytes_length]
  | .vfloat b => by
    intro hwf fuel rest hlt
    simp only [WFv, decide_eq_true_eq] at hwf
    obtain ⟨g, rfl⟩ : ∃ g, fuel = g + 1 := ⟨fuel - 1, by omega⟩
    rw [show encodeVal (DocValue.vfloat b) ++ rest
          = 5 :: (natToBytes 4 b ++ rest) by simp [encodeVal], decodeVal,
        readLE_append 4 b rest (by norm_num; omega)]
    simp [encodeVal, natToBytes_length]
  | .vdouble b => by
    intro hwf fuel rest hlt
    simp only [WFv, decide_eq_true_eq] at hwf
    obtain ⟨g, rfl⟩ : ∃ g, fuel = g + 1 := ⟨fuel - 1, by omega⟩
    rw [show encodeVal (DocValue.vdouble b) ++ rest
          = 6 :: (natToBytes 8 b ++ rest) by simp [encodeVal], decodeVal,
        readLE_append 8 b rest (by norm_num; omega)]
    simp [encodeVal, natToBytes_length]
  | .vstring s => by
    intro hwf fuel rest hlt
    simp only [WFv, Bool.and_eq_true, decide_eq_true_eq] at hwf
    obtain ⟨hlen, -⟩ := hwf
    obtain ⟨g, rfl⟩ : ∃ g, fuel = g + 1 := ⟨fuel - 1, by omega⟩
    rw [show encodeVal (DocValue.vstring s) ++ rest
          = 7 :: (natToBytes 2 s.length ++ (s ++ rest)) by
        simp [encodeVal], decodeVal,
        readLE_append 2 s.length (s ++ rest) (by norm_num; omega),
        drop2_natToBytes]
    simp only [readN_append]
    simp [encodeVal, natToBytes_length]
    omega
  | .vlongString s => by
    intro hwf fuel rest hlt
    simp only [WFv, Bool.and_eq_true, decide_eq_true_eq] at hwf
    obtain ⟨hlen, -⟩ := hwf
    obtain ⟨g, rfl⟩ : ∃ g, fuel = g + 1 := ⟨fuel - 1, by omega⟩
    rw [show encodeVal (DocValue.vlongString s) ++ rest
          = 8 :: (natToBytes 4 s.length ++ (s ++ rest)) by
        simp [encodeVal], decodeVal,
        readLE_append 4 s.length (s ++ rest) (by norm_num; omega),
        drop4_natToBytes]
    simp only [readN_append]
    simp [encodeVal, natToBytes_length]
    omega
  | .vbyteArray b => by
    intro hwf fuel rest hlt
    simp only [WFv, Bool.and_eq_true, decide_eq_true_eq] at hwf
    obtain ⟨hlen, -⟩ := hwf
    obtain ⟨g, rfl⟩ : ∃ g, fuel = g + 1 := ⟨fuel - 1, by omega⟩
    rw [show encodeVal (DocValue.vbyteArray b) ++ rest
          = 9 :: (natToBytes 4 b.length ++ (b ++ rest)) by
        simp [encodeVal], decodeVal,
        readLE_append 4 b.length (b ++ rest) (by norm_num; omega),
        drop4_natToBytes]
    simp only [readN_append]
    simp [encodeVal, natToBytes_length]
    omega
  | .vobject es => by
    intro hwf fuel rest hlt
    simp only [WFv, Bool.and_eq_true, decide_eq_true_eq] at hwf
    obtain ⟨hcnt, hes⟩ := hwf
    have hlen : (encodeVal (DocValue.vobject es)).length
        = 5 + (encodeObjEntries es).length := by
      simp [encodeVal, natToBytes_length]; try omega
    rw [hlen] at hlt
    obtain ⟨g, rfl⟩ : ∃ g, fuel = g + 1 := ⟨fuel - 1, by omega⟩
    have hrd := readLE_append 4 es.count (encodeObjEntries es ++ rest)
      (by norm_num; omega)
    have hrec := rtObj es hes g rest (by omega)
    rw [show encodeVal (DocValue.vobject es) ++ rest
          = 10 :: (natToBytes 4 es.count ++ (encodeObjEntries es ++ rest))
          by simp [encodeVal], decodeVal]
    simp [hrd, drop4_natToBytes, hrec, hlen]
    try omega
  | .varray l => by
    intro hwf fuel rest hlt
    simp only [WFv, Bool.and_eq_true, decide_eq_true_eq] at hwf
    obtain ⟨hcnt, hl⟩ := hwf
    have hlen : (encodeVal (DocValue.varray l)).length
        = 5 + (encodeList l).length := by
      simp [encodeVal, natToBytes_length]; try omega
    rw [hlen] at hlt
    obtain ⟨g, rfl⟩ : ∃ g, fuel = g + 1 := ⟨fuel - 1, by omega⟩
    have hrd := readLE_append 4 l.count (encodeList l ++ rest)
      (by norm_num; omega)
    have hrec := rtList l hl g rest (by omega)
    rw [show encodeVal (DocValue.varray l) ++ rest
          = 11 :: (natToBytes 4 l.count ++ (encodeList l ++ rest))
          by simp [encodeVal], decodeVal]
    simp [hrd, drop4_natToBytes, hrec, hlen]
    try omega
  | .vdict es => by
    intro hwf fuel rest hlt
    simp only [WFv, Bool.and_eq_true, decide_eq_true_eq] at hwf
    obtain ⟨hcnt, hes⟩ := hwf
    have hlen : (encodeVal (DocValue.vdict es)).length
        = 5 + (encodeDictEntries es).length := by
      simp [encodeVal, natToBytes_length]; try omega
    rw [hlen] at hlt
    obtain ⟨g, rfl⟩ : ∃ g, fuel = g + 1 := ⟨fuel - 1, by omega⟩
    have hrd := readLE_append 4 es.count (encodeDictEntries es ++ rest)
      (by norm_num; omega)
    have hrec := rtDict es hes g rest (by omega)
    rw [show encodeVal (DocValue.vdict es) ++ rest
          = 12 :: (natToBytes 4 es.count ++ (encodeDictEntries es ++ rest))
          by simp [encodeVal], decodeVal]
    simp [hrd, drop4_natToBytes, hrec, hlen]
    try omega
theorem rtList : ∀ (l : DocList), WFlist l = true → ∀ (fuel : Nat)
    (rest : List Nat), (encodeList l).length < fuel →
    decodeArrN fuel (encodeList l ++ rest) l.count
      = some (l, (encodeList l).length)
  | .nil => by
    intro _ fuel rest _
    simp [encodeList, DocList.count, decodeArrN]
  | .cons v tl => by
    intro hwf fuel rest hlt
    simp only [WFlist, Bool.and_eq_true] at hwf
    obtain ⟨hv, htl⟩ := hwf
    have hlen : (encodeList (DocList.cons v tl)).length
        = (encodeVal v).length + (encodeList tl).length := by
      simp [encodeList]
    rw [hlen] at hlt
    have hv1 := rtVal v hv fuel (encodeList tl ++ rest) (by omega)
    have htl1 := rtList tl htl fuel rest (by omega)
    simp only [DocList.count]
    rw [show encodeList (DocList.cons v tl) ++ rest
          = encodeVal v ++ (encodeList tl ++ rest) by simp [encodeList],
        decodeArrN]
    simp [hv1, drop_len, htl1, hlen]
    try omega
theorem rtObj : ∀ (es : ObjEntries), WFobj es = true → ∀ (fuel : Nat)
    (rest : List Nat), (encodeObjEntries es).length < fuel →
    decodeObjN fuel (encodeObjEntries es ++ rest) es.count
      = some (es, (encodeObjEntries es).length)
  | .nil => by
    intro _ fuel rest _
    simp [encodeObjEntries, ObjEntries.count, decodeObjN]
  | .cons k v tl => by
    intro hwf fuel rest hlt
    simp only [WFobj, Bool.and_eq_true, decide_eq_true_eq] at hwf
    obtain ⟨⟨⟨hk, hv⟩, -⟩, htl⟩ := hwf
    have hlen : (encodeObjEntries (ObjEntries.cons k v tl)).length
        = 4 + ((encodeVal v).length + (encodeObjEntries tl).length) := by
      simp [encodeObjEntries, natToBytes_length]; try omega
    rw [hlen] at hlt
    have hrd := readLE_append 4 k
      (encodeVal v ++ (encodeObjEntries tl ++ rest)) (by norm_num; omega)
    have hv1 := rtVal v hv fuel (encodeObjEntries tl ++ rest) (by omega)
    have htl1 := rtObj tl htl fuel rest (by omega)
    simp only [ObjEntries.count]
    rw [show encodeObjEntries (ObjEntries.cons k v tl) ++ rest
          = natToBytes 4 k
              ++ (encodeVal v ++ (encodeObjEntries tl ++ rest)) by
        simp [encodeObjEntries],
        decodeObjN]
    simp [hrd, drop4_natToBytes, drop4_add_natToBytes, drop_len,
          hv1, htl1, hlen]
    try omega
theorem rtDict : ∀ (es : DictEntries), WFdict es = true → ∀ (fuel : Nat)
    (rest : List Nat), (encodeDictEntries es).length < fuel →
    decodeDictN fuel (encodeDictEntries es ++ rest) es.count
      = some (es, (encodeDictEntries es).length)
  | .nil => by
    intro _ fuel rest _
    simp [encodeDictEntries, DictEntries.count, decodeDictN]
  | .cons k v tl => by
    intro hwf fuel rest hlt
    simp only [WFdict, Bool.and_eq_true, decide_eq_true_eq] at hwf
    obtain ⟨⟨⟨⟨hk, -⟩, hv⟩, -⟩, htl⟩ := hwf
    have hlen : (encodeDictEntries (DictEntries.cons k v tl)).length
        = 2 + (k.length
          + ((encodeVal v).length + (encodeDictEntries tl).length)) := by
      simp [encodeDictEntries, natToBytes_length]; try omega
    rw [hlen] at hlt
    have hrd := readLE_append 2 k.length
      (k ++ (encodeVal v ++ (encodeDictEntries tl ++ rest)))
      (by norm_num; omega)
    have hv1 := rtVal v hv fuel (encodeDictEntries tl ++ rest) (by omega)
    have htl1 := rtDict tl htl fuel rest (by omega)
    simp only [DictEntries.count]
    rw [show encodeDictEntries (DictEntries.cons k v tl) ++ rest
          = natToBytes 2 k.length
              ++ (k ++ (encodeVal v ++ (encodeDictEntries tl ++ rest))) by
        simp [encodeDictEntries],
        decodeDictN]
    simp [hrd, drop2_natToBytes, readN_append, drop2_add_natToBytes,
          drop_len_add, drop_len, hv1, htl1, hlen]
    try omega
end

/-! Decode consumption bounds: a successful decode never consumes more
bytes than the buffer holds, i.e. every length/count prefix that would
require reading past the end has already produced the error `none`. -/

theorem decodeArrN_bound (fuel : Nat)
    (ih : ∀ bytes r, decodeVal fuel bytes = some r → r.2 ≤ bytes.length) :
    ∀ cnt bytes r, decodeArrN fuel bytes cnt = some r → r.2 ≤ bytes.length := by
  intro cnt
  induction cnt with
  | zero =>
    intro bytes r h
    rw [decodeArrN] at h
    obtain rfl : (DocList.nil, 0) = r := Option.some.inj h
    simp
  | succ cnt ihc =>
    intro bytes ⟨rv, ru⟩ h
    rw [decodeArrN] at h
    cases hv : decodeVal fuel bytes with
    | none => rw [hv] at h; simp at h
    | some p =>
      obtain ⟨v, u⟩ := p
      rw [hv] at h
      simp only at h
      cases ht : decodeArrN fuel (bytes.drop u) cnt with
      | none => rw [ht] at h; simp at h
      | some q =>
        rw [ht] at h
        obtain ⟨tl, u2⟩ := q
        simp only [Option.some.injEq, Prod.mk.injEq] at h
        obtain ⟨-, rfl⟩ := h
        have h1 := ih bytes (v, u) hv
        have h2 := ihc (bytes.drop u) (tl, u2) ht
        rw [List.length_drop] at h2
        simp at h1 h2 ⊢
        omega

theorem decodeObjN_bound (fuel : Nat)
    (ih : ∀ bytes r, decodeVal fuel bytes = some r → r.2 ≤ bytes.length) :
    ∀ cnt bytes r, decodeObjN fuel bytes cnt = some r → r.2 ≤ bytes.length := by
  intro cnt
  induction cnt with
  | zero =>
    intro bytes r h
    rw [decodeObjN] at h
    obtain rfl : (ObjEntries.nil, 0) = r := Option.some.inj h
    simp
  | succ cnt ihc =>
    intro bytes ⟨rv, ru⟩ h
    rw [decodeObjN] at h
    show ru ≤ bytes.length
    cases hk : readLE 4 bytes with
    | none => rw [hk] at h; simp at h
    | some key =>
      rw [hk] at h
      simp only at h
      cases hv : decodeVal fuel (bytes.drop 4) with
      | none => rw [hv] at h; simp at h
      | some p =>
        obtain ⟨v, u⟩ := p
        rw [hv] at h
        simp only at h
        cases ht : decodeObjN fuel (bytes.drop (4 + u)) cnt with
        | none => rw [ht] at h; simp at h
        | some q =>
          obtain ⟨tl, u2⟩ := q
          rw [ht] at h
          simp only [Option.some.injEq, Prod.mk.injEq] at h
          obtain ⟨-, h5⟩ := h
          have h0 := readLE_le hk
          have h1 : u ≤ bytes.length - 4 := by
            have := ih (bytes.drop 4) (v, u) hv
            simpa using this
          have h2 : u2 ≤ bytes.length - (4 + u) := by
            have := ihc (bytes.drop (4 + u)) (tl, u2) ht
            simpa using this
          omega

theorem decodeDictN_bound (fuel : Nat)
    (ih : ∀ bytes r, decodeVal fuel bytes = some r → r.2 ≤ bytes.length) :
    ∀ cnt bytes r, decodeDictN fuel bytes cnt = some r → r.2 ≤ bytes.length := by
  intro cnt
  induction cnt with
  | zero =>
    intro bytes r h
    rw [decodeDictN] at h
    obtain rfl : (DictEntries.nil, 0) = r := Option.some.inj h
    simp
  | succ cnt ihc =>
    intro bytes ⟨rv, ru⟩ h
    rw [decodeDictN] at h
    show ru ≤ bytes.length
    cases hk : readLE 2 bytes with
    | none => rw [hk] at h; simp at h
    | some klen =>
      rw [hk] at h
      simp only at h
      cases hn : readN klen (bytes.drop 2) with
      | none => rw [hn] at h; simp at h
      | some key =>
        rw [hn] at h
        simp only at h
        cases hv : decodeVal fuel (bytes.drop (2 + klen)) with
        | none => rw [hv] at h; simp at h
        | some p =>
          obtain ⟨v, u⟩ := p
          rw [hv] at h
          simp only at h
          cases ht : decodeDictN fuel (bytes.drop (2 + (klen + u))) cnt with
          | none => rw [ht] at h; simp at h
          | some q =>
            obtain ⟨tl, u2⟩ := q
            rw [ht] at h
            simp only [Option.some.injEq, Prod.mk.injEq] at h
            obtain ⟨-, h5⟩ := h
            have h0 := readLE_le hk
            have h9 : klen ≤ bytes.length - 2 := by
              have := readN_le hn
              simpa using this
            have h1 : u ≤ bytes.length - (2 + klen) := by
              have := ih (bytes.drop (2 + klen)) (v, u) hv
              simpa using this
            have h2 : u2 ≤ bytes.length - (2 + (klen + u)) := by
              have := ihc (bytes.drop (2 + (klen + u))) (tl, u2) ht
              simpa using this
            omega


theorem decodeVal_bound : ∀ (fuel : Nat) (bytes : List Nat)
    (r : DocValue × Nat),
    decodeVal fuel bytes = some r → r.2 ≤ bytes.length := by
  intro fuel
  induction fuel with
  | zero => intro bytes r h; rw [decodeVal] at h; simp at h
  | succ g ih =>
    intro bytes ⟨rv, ru⟩ h
    cases bytes with
    | nil => rw [decodeVal] at h; simp at h
    | cons tag rest =>
      rw [decodeVal] at h
      simp only [List.length_cons]
      show ru ≤ rest.length + 1
      by_cases e0 : tag = 0
      · rw [if_pos e0] at h
        simp only [Option.some.injEq, Prod.mk.injEq] at h
        obtain ⟨-, h5⟩ := h
        omega
      rw [if_neg e0] at h
      by_cases e1 : tag = 1
      · rw [if_pos e1] at h
        cases hk : readLE 1 rest with
        | none => rw [hk] at h; simp at h
        | some n =>
          rw [hk] at h
          simp only [Option.some.injEq, Prod.mk.injEq] at h
          obtain ⟨-, h5⟩ := h
          have h0 := readLE_le hk
          omega
      rw [if_neg e1] at h
      by_cases e2 : tag = 2
      · rw [if_pos e2] at h
        cases hk : readLE 2 rest with
        | none => rw [hk] at h; simp at h
        | some n =>
          rw [hk] at h
          simp only [Option.some.injEq, Prod.mk.injEq] at h
          obtain ⟨-, h5⟩ := h
          have h0 := readLE_le hk
          omega
      rw [if_neg e2] at h
      by_cases e3 : tag = 3
      · rw [if_pos e3] at h
        cases hk : readLE 4 rest with
        | none => rw [hk] at h; simp at h
        | some n =>
          rw [hk] at h
          simp only [Option.some.injEq, Prod.mk.injEq] at h
          obtain ⟨-, h5⟩ := h
          have h0 := readLE_le hk
          omega
      rw [if_neg e3] at h
      by_cases e4 : tag = 4
      · rw [if_pos e4] at h
        cases hk : readLE 8 rest with
        | none => rw [hk] at h; simp at h
        | some n =>
          rw [hk] at h
          simp only [Option.some.injEq, Prod.mk.injEq] at h
          obtain ⟨-, h5⟩ := h
          have h0 := readLE_le hk
          omega
      rw [if_neg e4] at h
      by_cases e5 : tag = 5
      · rw [if_pos e5] at h
        cases hk : readLE 4 rest with
        | none => rw [hk] at h; simp at h
        | some n =>
          rw [hk] at h
          simp only [Option.some.injEq, Prod.mk.injEq] at h
          obtain ⟨-, h5⟩ := h
          have h0 := readLE_le hk
          omega
      rw [if_neg e5] at h
      by_cases e6 : tag = 6
      · rw [if_pos e6] at h
        cases hk : readLE 8 rest with
        | none => rw [hk] at h; simp at h
        | some n =>
          rw [hk] at h
          simp only [Option.some.injEq, Prod.mk.injEq] at h
          obtain ⟨-, h5⟩ := h
          have h0 := readLE_le hk
          omega
      rw [if_neg e6] at h
      by_cases e7 : tag = 7
      · rw [if_pos e7] at h
        cases hk : readLE 2 rest with
        | none => rw [hk] at h; simp at h
        | some len =>
          rw [hk] at h
          simp only at h
          cases hn : readN len (rest.drop 2) with
          | none => rw [hn] at h; simp at h
          | some s =>
            rw [hn] at h
            simp only [Option.some.injEq, Prod.mk.injEq] at h
            obtain ⟨-, h5⟩ := h
            have h0 := readLE_le hk
            have h9 : len ≤ rest.length - 2 := by
              have := readN_le hn
              simpa using this
            omega
      rw [if_neg e7] at h
      by_cases e8 : tag = 8
      · rw [if_pos e8] at h
        cases hk : readLE 4 rest with
        | none => rw [hk] at h; simp at h
        | some len =>
          rw [hk] at h
          simp only at h
          cases hn : readN len (rest.drop 4) with
          | none => rw [hn] at h; simp at h
          | some s =>
            rw [hn] at h
            simp only [Option.some.injEq, Prod.mk.injEq] at h
            obtain ⟨-, h5⟩ := h
            have h0 := readLE_le hk
            have h9 : len ≤ rest.length - 4 := by
              have := readN_le hn
              simpa using this
            omega
      rw [if_neg e8] at h
      by_cases e9 : tag = 9
      · rw [if_pos e9] at h
        cases hk : readLE 4 rest with
        | none => rw [hk] at h; simp at h
        | some len =>
          rw [hk] at h
          simp only at h
          cases hn : readN len (rest.drop 4) with
          | none => rw [hn] at h; simp at h
          | some s =>
            rw [hn] at h
            simp only [Option.some.injEq, Prod.mk.injEq] at h
            obtain ⟨-, h5⟩ := h
            have h0 := readLE_le hk
            have h9 : len ≤ rest.length - 4 := by
              have := readN_le hn
              simpa using this
            omega
      rw [if_neg e9] at h
      by_cases e10 : tag = 10
      · rw [if_pos e10] at h
        cases hk : readLE 4 rest with
        | none => rw [hk] at h; simp at h
        | some cnt =>
          rw [hk] at h
          simp only at h
          cases ho : decodeObjN g (rest.drop 4) cnt with
          | none => rw [ho] at h; simp at h
          | some q =>
            obtain ⟨es, used⟩ := q
            rw [ho] at h
            simp only [Option.some.injEq, Prod.mk.injEq] at h
            obtain ⟨-, h5⟩ := h
            have h0 := readLE_le hk
            have h9 : used ≤ rest.length - 4 := by
              have := decodeObjN_bound g ih cnt (rest.drop 4) (es, used) ho
              simpa using this
            omega
      rw [if_neg e10] at h
      by_cases e11 : tag = 11
      · rw [if_pos e11] at h
        cases hk : readLE 4 rest with
        | none => rw [hk] at h; simp at h
        | some cnt =>
          rw [hk] at h
          simp only at h
          cases ho : decodeArrN g (rest.drop 4) cnt with
          | none => rw [ho] at h; simp at h
          | some q =>
            obtain ⟨es, used⟩ := q
            rw [ho] at h
            simp only [Option.some.injEq, Prod.mk.injEq] at h
            obtain ⟨-, h5⟩ := h
            have h0 := readLE_le hk
            have h9 : used ≤ rest.length - 4 := by
              have := decodeArrN_bound g ih cnt (rest.drop 4) (es, used) ho
              simpa using this
            omega
      rw [if_neg e11] at h
      by_cases e12 : tag = 12
      · rw [if_pos e12] at h
        cases hk : readLE 4 rest with
        | none => rw [hk] at h; simp at h
        | some cnt =>
          rw [hk] at h
          simp only at h
          cases ho : decodeDictN g (rest.drop 4) cnt with
          | none => rw [ho] at h; simp at h
          | some q =>
            obtain ⟨es, used⟩ := q
            rw [ho] at h
            simp only [Option.some.injEq, Prod.mk.injEq] at h
            obtain ⟨-, h5⟩ := h
            have h0 := readLE_le hk
            have h9 : used ≤ rest.length - 4 := by
              have := decodeDictN_bound g ih cnt (rest.drop 4) (es, used) ho
              simpa using this
            omega
      rw [if_neg e12] at h
      simp at h

/-- A concrete nested document used by the round-trip witness: an ARRAY
holding a STRING, an INT8, an OBJECT of two entries, and a DICTIONARY of
one entry. -/
def sampleDoc : DocValue :=
  DocValue.varray (.cons (.vstring [104, 105])
    (.cons (.vint8 5)
      (.cons (.vobject (.cons 1 .vnone (.cons 2 (.vint16 300) .nil)))
        (.cons (.vdict (.cons [97] (.vint32 70000) .nil)) .nil))))

/-- C1: for every representable Value (scalar, string, byte array, and
arbitrarily nested OBJECT/ARRAY/DICTIONARY tree), decoding the bytes
produced by encode yields a value structurally equal to the input, with
the same tag and all descendant payloads, consuming exactly the encoded
bytes: decode composed with encode is the identity on representable
values. -/
theorem roundtrip_decode_encode (v : DocValue) (hwf : WFv v = true) :
    decode (encodeVal v) 0 = some (v, (encodeVal v).length) := by
  rw [decode, List.drop_zero]
  have h := rtVal v hwf ((encodeVal v).length + 1) [] (by omega)
  simpa using h

/-- Witness for the round-trip theorem at a concrete nested document. -/
theorem roundtrip_decode_encode_witness :
    WFv sampleDoc = true ∧
      decode (encodeVal sampleDoc) 0
        = some (sampleDoc, (encodeVal sampleDoc).length) :=
  ⟨by decide, roundtrip_decode_encode sampleDoc (by decide)⟩

/-- C2: decode reports a distinguishable fatal error (`none`) instead of
silently truncating or reading out of bounds: an unrecognized tag byte at
the decode offset is rejected; any successful decode consumed no more
bytes than the buffer held past the offset (so a length or count prefix
reaching past the end can never succeed); and the concrete example of a
STRING tag with a 2-byte length prefix of 100 followed by only 10 bytes
is rejected. -/
theorem decode_malformed_rejected :
    (∀ (buffer : List Nat) (offset b : Nat),
        buffer[offset]? = some b → 12 < b → decode buffer offset = none) ∧
    (∀ (buffer : List Nat) (offset : Nat) (v : DocValue) (used : Nat),
        decode buffer offset = some (v, used) →
          used ≤ buffer.length - offset) ∧
    decode (7 :: ([100, 0] ++ List.replicate 10 0)) 0 = none := by
  refine ⟨?_, ?_, ?_⟩
  · intro buffer offset b hb hgt
    rw [decode]
    have hd : (buffer.drop offset)[0]? = some b := by
      rw [List.getElem?_drop]
      simpa using hb
    cases hbuf : buffer.drop offset with
    | nil => rw [hbuf] at hd; simp at hd
    | cons hd0 tl =>
      rw [hbuf] at hd
      simp only [List.getElem?_cons_zero, Option.some.injEq] at hd
      subst hd
      rw [decodeVal]
      repeat rw [if_neg (by omega)]
  · intro buffer offset v used h
    rw [decode] at h
    have hb := decodeVal_bound (buffer.length + 1) (buffer.drop offset)
      (v, used) h
    simpa using hb
  · simp [decode, decodeVal, readLE, readN, bytesToNat]

/-- Witness for the malformed-decode theorem: the unrecognized tag byte
13 is rejected, and a successful decode of the 1-byte buffer holding a
NONE tag consumes exactly its single byte. -/
theorem decode_malformed_rejected_witness :
    ([13] : List Nat)[0]? = some 13 ∧ 12 < 13 ∧ decode [13] 0 = none ∧
      decode [0] 0 = some (DocValue.vnone, 1) ∧
      (1 : Nat) ≤ ([0] : List Nat).length - 0 := by
  refine ⟨rfl, by omega,
    decode_malformed_rejected.1 [13] 0 13 rfl (by omega),
    by simp [decode, decodeVal], ?_⟩
  have hb := decode_malformed_rejected.2.1 [0] 0 DocValue.vnone 1
    (by simp [decode, decodeVal])
  exact hb

/-- C3: for every magnitude supplied through any of the four
unsigned-width constructors or assignment operators, the resulting tag is
the smallest of INT8/INT16/INT32/INT64 whose width can represent the
magnitude (INT8 iff m <= 255, INT16 iff 255 < m <= 65535, INT32 iff
65535 < m <= 4294967295, INT64 otherwise); assignment narrows identically
for every previous state of the node, so re-assigning a smaller magnitude
to an INT64-tagged node demotes its tag. -/
theorem tag_narrowing_integer (m8 m16 m32 m64 : Nat) (v : Value)
    (h8 : m8 < 2 ^ 8) (h16 : m16 < 2 ^ 16) (h32 : m32 < 2 ^ 32)
    (h64 : m64 < 2 ^ 64) :
    (Value.fromUInt8 m8).type = specNarrowTag m8 ∧
    (Value.fromUInt16 m16).type = specNarrowTag m16 ∧
    (Value.fromUInt32 m32).type = specNarrowTag m32 ∧
    (Value.fromUInt64 m64).type = specNarrowTag m64 ∧
    (v.assignUInt8 m8).type = specNarrowTag m8 ∧
    (v.assignUInt16 m16).type = specNarrowTag m16 ∧
    (v.assignUInt32 m32).type = specNarrowTag m32 ∧
    (v.assignUInt64 m64).type = specNarrowTag m64 := by
  obtain ⟨t, i, d, s, b, o, a, dc⟩ := v
  refine ⟨?_, ?_, ?_, ?_, ?_, ?_, ?_, ?_⟩ <;>
    simp only [Value.fromUInt8, Value.fromUInt16, Value.fromUInt32,
      Value.fromUInt64, Value.assignUInt8, Value.assignUInt16,
      Value.assignUInt32, Value.assignUInt64, Value.type,
      specNarrowTag] <;>
    split_ifs <;> first | rfl | omega

/-- Witness for the tag-narrowing theorem: 300 supplied through the
16-bit constructor gives INT16, and assigning 300 through the 64-bit
assignment to a node previously tagged INT64 demotes the tag to INT16. -/
theorem tag_narrowing_integer_witness :
    (200 : Nat) < 2 ^ 8 ∧ (300 : Nat) < 2 ^ 16 ∧ (70000 : Nat) < 2 ^ 32 ∧
    (300 : Nat) < 2 ^ 64 ∧
    (Value.fromUInt64 4294967296).type = Ty.INT64 ∧
    ((Value.fromUInt64 4294967296).assignUInt64 300).type
        = specNarrowTag 300 ∧
    specNarrowTag 300 = Ty.INT16 ∧
    (Value.fromUInt16 300).type = specNarrowTag 300 := by
  have h := tag_narrowing_integer 200 300 70000 300
    (Value.fromUInt64 4294967296) (by omega) (by omega) (by omega)
    (by omega)
  exact ⟨by omega, by omega, by omega, by omega, by decide,
    h.2.2.2.2.2.2.2, by decide, h.2.1⟩

/-- C4: constructing or assigning a Value from a string stores the string
as the string payload and picks the tag purely by byte length, STRING iff
the length is at most 65535 and LONG_STRING otherwise, independent of the
content. -/
theorem string_tag_by_length (s : List Nat) (v : Value) :
    ((Value.fromString s).type
        = if s.length ≤ 65535 then Ty.STRING else Ty.LONG_STRING) ∧
    (Value.fromString s).stringValue = s ∧
    ((v.assignString s).type
        = if s.length ≤ 65535 then Ty.STRING else Ty.LONG_STRING) ∧
    (v.assignString s).stringValue = s := by
  obtain ⟨t, i, d, sv, b, o, a, dc⟩ := v
  refine ⟨?_, rfl, ?_, rfl⟩ <;>
    (simp only [Value.fromString, Value.assignString, Value.type]
     try (split_ifs <;> first | rfl | omega))

/-- C5: the const indexers return a NONE-tagged default Value for an
absent OBJECT key, an out-of-range ARRAY index, or an absent DICTIONARY
key; being const methods, they take the receiver purely as input, so the
container is left unchanged by construction. -/
theorem container_read_absent_none (vo va vd : Value) (key : Nat)
    (skey : List Nat)
    (ho : vo.type = Ty.OBJECT) (hol : lookupU vo.objectValue key = none)
    (ha : va.type = Ty.ARRAY) (hal : va.arrayValue.length ≤ key)
    (hd : vd.type = Ty.DICTIONARY)
    (hdl : lookupS vd.dictionaryValue skey = none) :
    vo.atConstU key = some Value.defaultVal ∧
    va.atConstU key = some Value.defaultVal ∧
    vd.atConstS skey = some Value.defaultVal ∧
    Value.defaultVal.type = Ty.NONE := by
  have hnone : va.arrayValue[key]? = none := by
    rw [List.getElem?_eq_none hal]
  refine ⟨?_, ?_, ?_, rfl⟩
  · simp [Value.atConstU, ho, hol]
  · simp [Value.atConstU, ha, hnone]
  · simp [Value.atConstS, hd, hdl]

/-- Witness for the const-indexer theorem: empty containers built from
bare container tags, probed at key 7, index 0 and key "a". -/
theorem container_read_absent_none_witness :
    (Value.fromType Ty.OBJECT).atConstU 7 = some Value.defaultVal ∧
    (Value.fromType Ty.ARRAY).atConstU 0 = some Value.defaultVal ∧
    (Value.fromType Ty.DICTIONARY).atConstS [97] = some Value.defaultVal ∧
    Value.defaultVal.type = Ty.NONE :=
  container_read_absent_none (Value.fromType Ty.OBJECT)
    (Value.fromType Ty.ARRAY) (Value.fromType Ty.DICTIONARY) 7 [97]
    rfl rfl rfl (by decide) rfl rfl

/-- C6: invoking the mutable integer indexer on a node whose tag is
neither ARRAY nor OBJECT coerces the node's tag to ARRAY while leaving
the array payload as it was, and returns the reference into the array
payload at that index (modelled as the element there, `none` when the
index is out of range, which is undefined behaviour in the C++). -/
theorem mut_index_coerces_array (v : Value) (key : Nat)
    (hna : v.type ≠ Ty.ARRAY) (hno : v.type ≠ Ty.OBJECT) :
    (v.atMutU key).1.type = Ty.ARRAY ∧
    (v.atMutU key).1.arrayValue = v.arrayValue ∧
    (v.atMutU key).2 = v.arrayValue[key]? := by
  obtain ⟨t, i, d, s, b, o, a, dc⟩ := v
  simp only [Value.type] at hna hno
  simp [Value.atMutU, hno, Value.type, Value.arrayValue]

/-- Witness for the mutable-indexer coercion at a STRING-tagged node. -/
theorem mut_index_coerces_array_witness :
    (Value.fromString [104]).type ≠ Ty.ARRAY ∧
    (Value.fromString [104]).type ≠ Ty.OBJECT ∧
    ((Value.fromString [104]).atMutU 0).1.type = Ty.ARRAY ∧
    ((Value.fromString [104]).atMutU 0).1.arrayValue = [] ∧
    ((Value.fromString [104]).atMutU 0).2 = none := by
  have h := mut_index_coerces_array (Value.fromString [104]) 0
    (by decide) (by decide)
  refine ⟨by decide, by decide, h.1, ?_, ?_⟩
  · rw [h.2.1]; rfl
  · rw [h.2.2]; rfl

/-- C7 counterexample: `append` on a NONE-tagged default node does not
fail fast: its body contains no assertion, the push onto the array
payload succeeds and the tag stays NONE, whereas the assert-guarded
`getSize` on the same node fails.  This refutes the claim that append is
checked under the same fail-fast policy as begin/end/getSize. -/
theorem append_unchecked_counterexample :
    Value.defaultVal.append Value.defaultVal
        = Value.mk Ty.NONE 0 0.0 [] [] [] [Value.defaultVal] [] ∧
    (Value.defaultVal.append Value.defaultVal).type = Ty.NONE ∧
    Value.defaultVal.getSize = none :=
  ⟨rfl, rfl, rfl⟩

/-- C7 amended: `append` performs no tag check at all: for every
receiver, including non-ARRAY ones, it pushes the node onto the
`arrayValue` payload and leaves the tag and every other field unchanged
(unlike begin/end/getSize, which assert the ARRAY tag). -/
theorem append_no_tag_check (v node : Value) :
    (v.append node).type = v.type ∧
    (v.append node).arrayValue = v.arrayValue ++ [node] ∧
    (v.append node).intValue = v.intValue ∧
    (v.append node).doubleValue = v.doubleValue ∧
    (v.append node).stringValue = v.stringValue ∧
    (v.append node).byteArrayValue = v.byteArrayValue ∧
    (v.append node).objectValue = v.objectValue ∧
    (v.append node).dictionaryValue = v.dictionaryValue := by
  obtain ⟨t, i, d, s, b, o, a, dc⟩ := v
  exact ⟨rfl, rfl, rfl, rfl, rfl, rfl, rfl, rfl⟩

/-- C8: for a Value holding any of the four integer tags with stored
64-bit magnitude m, asUInt64 returns exactly m, each narrower unsigned
accessor returns m reduced modulo 2^N for its width N, and the signed
accessors reinterpret the truncated bit pattern in two's complement,
regardless of which integer tag is active. -/
theorem integer_accessor_values (v : Value)
    (h : v.type = Ty.INT8 ∨ v.type = Ty.INT16 ∨ v.type = Ty.INT32
      ∨ v.type = Ty.INT64) :
    v.asUInt64 = some v.intValue ∧
    v.asUInt8 = some (v.intValue % 2 ^ 8) ∧
    v.asUInt16 = some (v.intValue % 2 ^ 16) ∧
    v.asUInt32 = some (v.intValue % 2 ^ 32) ∧
    v.asInt8 = some (toSigned 8 (v.intValue % 2 ^ 8)) ∧
    v.asInt16 = some (toSigned 16 (v.intValue % 2 ^ 16)) ∧
    v.asInt32 = some (toSigned 32 (v.intValue % 2 ^ 32)) ∧
    v.asInt64 = some (toSigned 64 (v.intValue % 2 ^ 64)) := by
  have hit : v.type.isIntTag := h
  simp [Value.asUInt64, Value.asUInt8, Value.asUInt16, Value.asUInt32,
        Value.asInt8, Value.asInt16, Value.asInt32, Value.asInt64, hit]

/-- Witness for the accessor theorem at an INT64-tagged node holding
2^40 + 7: the full magnitude comes back from asUInt64 and the low byte 7
from asUInt8. -/
theorem integer_accessor_values_witness :
    (Value.fromUInt64 1099511627783).type = Ty.INT64 ∧
    (Value.fromUInt64 1099511627783).asUInt64 = some 1099511627783 ∧
    (Value.fromUInt64 1099511627783).asUInt8 = some 7 ∧
    (Value.fromUInt64 1099511627783).asInt8 = some 7 := by
  have h := integer_accessor_values (Value.fromUInt64 1099511627783)
    (Or.inr (Or.inr (Or.inr (by decide))))
  refine ⟨by decide, ?_, ?_, ?_⟩
  · rw [h.1]
    rfl
  · rw [h.2.1]; decide
  · rw [h.2.2.2.2.1]; decide

/-- C9: assigning a bare Type via operator=(Type) changes only the tag:
every payload field keeps its previous contents, so for example a node
re-tagged to ARRAY exposes whatever array payload it already held. -/
theorem assign_type_frame (v : Value) (t : Ty) :
    (v.assignType t).type = t ∧
    (v.assignType t).intValue = v.intValue ∧
    (v.assignType t).doubleValue = v.doubleValue ∧
    (v.assignType t).stringValue = v.stringValue ∧
    (v.assignType t).byteArrayValue = v.byteArrayValue ∧
    (v.assignType t).objectValue = v.objectValue ∧
    (v.assignType t).arrayValue = v.arrayValue ∧
    (v.assignType t).dictionaryValue = v.dictionaryValue := by
  obtain ⟨t0, i, d, s, b, o, a, dc⟩ := v
  exact ⟨rfl, rfl, rfl, rfl, rfl, rfl, rfl, rfl⟩

/-- C10: constructing a Value from a container Type tag alone yields an
empty container: getSize is 0 for ARRAY, and hasElement is false for
every integer key on OBJECT and ARRAY and for every string key on
DICTIONARY. -/
theorem container_type_ctor_empty (key : Nat) (skey : List Nat) :
    (Value.fromType Ty.ARRAY).getSize = some 0 ∧
    (Value.fromType Ty.OBJECT).hasElementU key = some false ∧
    (Value.fromType Ty.ARRAY).hasElementU key = some false ∧
    (Value.fromType Ty.DICTIONARY).hasElementS skey = some false := by
  refine ⟨rfl, ?_, ?_, ?_⟩
  · simp [Value.hasElementU, Value.fromType, Value.type, Value.objectValue,
          lookupU]
  · simp [Value.hasElementU, Value.fromType, Value.type, Value.arrayValue]
  · simp [Value.hasElementS, Value.fromType, Value.type,
          Value.dictionaryValue, lookupS]
